import Mathlib

/-!
Verification development for the `tj-daily-brief` daily digest pipeline
(`src/main.py`).  The pure core of the program — record normalization,
relevance scoring, exclusion filtering, deduplication, seen-state
suppression, per-bucket ranking, and recommendation merging — is shallowly
embedded below.  Python strings are Lean `String`s, Python `None`-able
string fields are `String` with `""` standing for "absent" (both are falsy
in Python, and the program only ever tests truthiness of these fields),
other `None`-able fields are `Option`, Python `int` is `Int`, and Python's
stable `sorted` is modelled by a stable insertion sort.  File I/O and HTTP
are modelled at the boundary (e.g. the seen-state file content is an
explicit parameter).
-/

namespace DailyBrief

/-- Prefix test on character lists: `matchesAt n h` holds when `n` occurs at
the very start of `h`.  Helper for the substring test below. -/
def matchesAt : List Char → List Char → Bool
  | [], _ => true
  | _ :: _, [] => false
  | a :: as, b :: bs => a == b && matchesAt as bs

/-- `containsSub n h` is true when `n` occurs contiguously anywhere in `h`.
Model of Python's `needle in hay` substring test. -/
def containsSub (n : List Char) : List Char → Bool
  | [] => n.isEmpty
  | b :: hs => matchesAt n (b :: hs) || containsSub n hs

/-- Python's `needle in hay` on strings. -/
def substrIn (needle hay : String) : Bool := containsSub needle.data hay.data

/-- Python's `str.lower()` (character-wise lowering; kernel-computable,
unlike `String.toLower` which recurses on byte positions). -/
def toLowerStr (s : String) : String := String.mk (s.data.map Char.toLower)

/-- `normalize` from main.py: `(s or "").lower()`.  With `""` standing for
an absent string the `or ""` is the identity. -/
def normalize (s : String) : String := toLowerStr s

/-- Stable insertion of `x` into `l`: `x` is placed before the first
element `y` with `le x y`; on ties the inserted (earlier-input) element
comes first.  Helper for `ssort`. -/
def sinsert (le : α → α → Bool) (x : α) : List α → List α
  | [] => [x]
  | y :: ys => if le x y then x :: y :: ys else y :: sinsert le x ys

/-- Stable sort by the total comparison `le` (`le x y` = "x may come before
y").  Model of Python's stable `sorted`: elements comparing equal keep
their input order. -/
def ssort (le : α → α → Bool) : List α → List α
  | [] => []
  | x :: xs => sinsert le x (ssort le xs)

/-- Configuration fields consumed by the core pipeline (`config.yml` keys;
`exclude_keywords` and the reco top-N counts have defaults applied at the
call sites in main.py, modelled here as plain fields). -/
structure Config where
  keywords : List String
  exclude_keywords : List String
  seen_days_keep : Int
  top_latest : Nat
  top_classic : Nat
  top_reco_oa : Nat
  top_reco_s2 : Nat
  top_reco : Nat

/-- `relevance_score` from main.py: per keyword, +3 for a case-insensitive
substring hit in the title, else +1 for a hit in the abstract. -/
def relevance_score (title abstract : String) (keywords : List String) : Int :=
  let t := normalize title
  let a := normalize abstract
  keywords.foldl
    (fun score kw =>
      let k := toLowerStr kw
      if substrIn k t then score + 3
      else if substrIn k a then score + 1
      else score)
    0

/-- Per-keyword contribution as the spec (4.2) words it: 3 if the keyword
occurs case-insensitively in the title, else 1 if in the abstract, else 0.
Spec-side counterpart used to state the claim about `relevance_score`. -/
def kwContribution (title abstract : String) (kw : String) : Int :=
  if substrIn (toLowerStr kw) (normalize title) then 3
  else if substrIn (toLowerStr kw) (normalize abstract) then 1
  else 0

/-- `excluded` from main.py: some exclude keyword occurs case-insensitively
in the title or the abstract. -/
def excluded (title abstract : String) (exclude_keywords : List String) : Bool :=
  let t := normalize title
  let a := normalize abstract
  exclude_keywords.any (fun k => substrIn (toLowerStr k) t || substrIn (toLowerStr k) a)

/-- `primary_location` sub-object of an OpenAlex work; only the two fields
main.py reads.  `""` stands for an absent / null field; the nested
`source.display_name` chain is collapsed into one field. -/
structure PrimaryLocation where
  landing_page_url : String
  source_display_name : String
deriving DecidableEq

/-- Raw OpenAlex work record: the fields of the JSON object that
`enrich` / `pick_best_url` read.  `via_tag` models the `_via` marker that
the ai4scholar path injects (absent on genuine OpenAlex records). -/
structure OAWork where
  title : String
  abstract_inverted_index : List (String × List Nat)
  publication_year : Option Int
  publication_date : Option String
  cited_by_count : Option Int
  primary_location : Option PrimaryLocation
  doi : String
  id : String
  via_tag : Option String
deriving DecidableEq

/-- Raw Semantic-Scholar-style recommendation record: the fields
`enrich_s2` reads (`externalIds.DOI` collapsed into one field). -/
structure S2Paper where
  title : String
  abstract : String
  year : Option Int
  citationCount : Option Int
  venue : String
  externalIds_DOI : String
  url : String
deriving DecidableEq

/-- Canonical record (the dict built by `enrich` / `enrich_s2`).
`via = none` models the missing `"via"` key on `enrich_s2` output. -/
structure Rec where
  title : String
  abstract : String
  publication_year : Option Int
  publication_date : Option String
  cited_by_count : Int
  venue : String
  doi : String
  url : String
  relevance : Int
  bucket : String
  via : Option String
deriving DecidableEq

/-- `(w.get("primary_location") or {}).get("landing_page_url")`, with `""`
for absent. -/
def landingOf (w : OAWork) : String :=
  match w.primary_location with
  | none => ""
  | some pl => pl.landing_page_url

/-- `(((w.get("primary_location") or {}).get("source") or {}).get("display_name")) or ""`. -/
def venueOf (w : OAWork) : String :=
  match w.primary_location with
  | none => ""
  | some pl => pl.source_display_name

/-- `pick_best_url` from main.py: DOI link, else landing page, else the
OpenAlex id (defaulting to `""` when even that is missing). -/
def pick_best_url (w : OAWork) : String :=
  if w.doi ≠ "" then w.doi
  else if landingOf w ≠ "" then landingOf w
  else w.id

/-- One insertion into the `pos2word` mapping of `reconstruct_abstract`:
Python dict update (overwrite keeps position of an existing key, a new key
is appended). -/
def insertPos (m : List (Nat × String)) (p : Nat) (w : String) : List (Nat × String) :=
  match m with
  | [] => [(p, w)]
  | (q, v) :: rest => if q = p then (q, w) :: rest else (q, v) :: insertPos rest p w

/-- Dict lookup `pos2word[i]` (total here; callers only use keys of `m`). -/
def lookupPos (m : List (Nat × String)) (p : Nat) : String :=
  match m.find? (fun e => e.1 == p) with
  | none => ""
  | some e => e.2

/-- `reconstruct_abstract` from main.py: invert the word → positions index
and join the words by ascending position with single spaces. -/
def reconstruct_abstract (inv : List (String × List Nat)) : String :=
  if inv.isEmpty then ""
  else
    let pos2word := inv.foldl (fun m e => e.2.foldl (fun m p => insertPos m p e.1) m) []
    let sortedPos := ssort (fun a b => decide (a ≤ b)) (pos2word.map Prod.fst)
    String.intercalate " " (sortedPos.map (fun p => lookupPos pos2word p))

/-- `enrich` from main.py: normalize a list of raw OpenAlex works into
canonical records under a bucket tag, dropping excluded works. -/
def enrich (cfg : Config) (works : List OAWork) (tag : String) : List Rec :=
  match works with
  | [] => []
  | w :: rest =>
    let title := w.title
    let abstract := reconstruct_abstract w.abstract_inverted_index
    if excluded title abstract cfg.exclude_keywords then enrich cfg rest tag
    else
      { title := title
        abstract := abstract
        publication_year := w.publication_year
        publication_date := w.publication_date
        cited_by_count := w.cited_by_count.getD 0
        venue := venueOf w
        doi := w.doi
        url := pick_best_url w
        relevance := relevance_score title abstract cfg.keywords
        bucket := tag
        via := some (w.via_tag.getD "official_s2") } :: enrich cfg rest tag

/-- `enrich_s2` from main.py: normalize Semantic-Scholar-style records. -/
def enrich_s2 (cfg : Config) (papers : List S2Paper) (tag : String) : List Rec :=
  match papers with
  | [] => []
  | p :: rest =>
    let title := p.title
    let abstract := p.abstract
    if excluded title abstract cfg.exclude_keywords then enrich_s2 cfg rest tag
    else
      let doi := p.externalIds_DOI
      let doi_url := if doi ≠ "" then "https://doi.org/" ++ doi else ""
      let url := if p.url ≠ "" then p.url else doi_url
      { title := title
        abstract := abstract
        publication_year := p.year
        publication_date := none
        cited_by_count := p.citationCount.getD 0
        venue := p.venue
        doi := doi_url
        url := if url ≠ "" then url else doi_url
        relevance := relevance_score title abstract cfg.keywords
        bucket := tag
        via := none } :: enrich_s2 cfg rest tag

/-- Identity key of a record: `it.get("doi") or it.get("url") or
it.get("title")` (with `""` as the falsy/absent value). -/
def identityKey (it : Rec) : String :=
  if it.doi ≠ "" then it.doi
  else if it.url ≠ "" then it.url
  else it.title

/-- Loop of `dedupe` from main.py, generic in the key accessor so the same
code serves both the record lists and the heap-indexed model below:
skip an element whose key is empty or already seen, otherwise keep it and
remember its key. -/
def dedupeGo (key : α → String) (seen : List String) : List α → List α
  | [] => []
  | it :: rest =>
    let k := key it
    if k = "" ∨ k ∈ seen then dedupeGo key seen rest
    else it :: dedupeGo key (k :: seen) rest

/-- `dedupe` from main.py (seen-set starts empty). -/
def dedupe (items : List Rec) : List Rec := dedupeGo identityKey [] items

/-- First-occurrence deduplication as the spec (4.3) words it: one record
per unique non-empty identity key, keeping the first occurrence, in
first-seen order.  Spec-side counterpart to `dedupe`. -/
def firstOccBy (key : α → String) : List α → List α
  | [] => []
  | x :: xs =>
    if key x = "" then firstOccBy key xs
    else x :: firstOccBy key (xs.filter (fun y => key y != key x))
termination_by l => l.length
decreasing_by
  · simp only [List.length_cons]; omega
  · simp only [List.length_cons]
    exact Nat.lt_succ_of_le (List.length_filter_le _ _)

/-- Persisted seen-state: identity key paired with the recorded value,
`some d` when the value parses as a calendar date (represented by its day
number), `none` when `date.fromisoformat` would raise. -/
abbrev SeenMap := List (String × Option Int)

/-- The `cleaned` loop of `filter_seen`: keep an entry when its value
parses as a date at most `keep` days in the past (unparseable values are
dropped by the `except: pass`). -/
def purgeSeen (seen : SeenMap) (today keep : Int) : SeenMap :=
  seen.filter (fun e =>
    match e.2 with
    | none => false
    | some d => decide (today - d ≤ keep))

/-- Python `key in seen` for the dict modelled as an association list. -/
def seenHasKey (seen : SeenMap) (k : String) : Bool := seen.any (fun e => e.1 == k)

/-- `filter_seen` from main.py, generic in the key accessor: purge expired
entries, then drop records whose key is empty or still present in the
purged mapping.  (The Python version also writes the purged mapping back
into the caller's dict; purging is idempotent and no keys are added
mid-run, so reusing the raw mapping at every call site is equivalent.) -/
def filter_seenBy (key : α → String) (keep : Int) (items : List α)
    (seen : SeenMap) (today : Int) : List α :=
  let cleaned := purgeSeen seen today keep
  items.filter (fun it => key it != "" && !(seenHasKey cleaned (key it)))

/-- `filter_seen` from main.py on canonical records
(`keep_days = int(cfg.get("seen_days_keep", 30))`). -/
def filter_seen (cfg : Config) (items : List Rec) (seen : SeenMap) (today : Int) : List Rec :=
  filter_seenBy identityKey cfg.seen_days_keep items seen today

/-- Comparison used by `pick_top`: descending lexicographic on
`(relevance, cited_by_count)` — `x` may come before `y` iff its key pair
is ≥ that of `y` (Python `sorted(key=..., reverse=True)`). -/
def rankLe (rel cited : α → Int) (x y : α) : Bool :=
  decide (rel y < rel x ∨ (rel y = rel x ∧ cited y ≤ cited x))

/-- `pick_top` from main.py, generic in the accessors: stable sort
descending by `(relevance, cited_by_count)`, then truncate to `n`. -/
def pick_topBy (rel cited : α → Int) (items : List α) (n : Nat) : List α :=
  (ssort (rankLe rel cited) items).take n

/-- `pick_top` from main.py on canonical records. -/
def pick_top (items : List Rec) (n : Nat) : List Rec :=
  pick_topBy Rec.relevance Rec.cited_by_count items n

/-- Comparison used by `pick_top_cited`: descending by citation count. -/
def citedLe (cited : α → Int) (x y : α) : Bool := decide (cited y ≤ cited x)

/-- `pick_top_cited` from main.py, generic in the accessor. -/
def pick_top_citedBy (cited : α → Int) (items : List α) (n : Nat) : List α :=
  (ssort (citedLe cited) items).take n

/-- `pick_top_cited` from main.py on canonical records. -/
def pick_top_cited (items : List Rec) (n : Nat) : List Rec :=
  pick_top_citedBy Rec.cited_by_count items n

/-- The `+2` relevance bias of main.py's merge step, as a value-level map
(the in-place, aliasing behaviour is modelled separately below). -/
def applyBiasVal (it : Rec) : Rec :=
  if it.bucket = "reco_s2" then { it with relevance := it.relevance + 2 } else it

/-- Lines 841–848 of main.py: concatenate the two recommendation buckets,
dedupe, apply the +2 bias to service-recommended records, rank and
truncate. -/
def mergeRecos (cfg : Config) (reco_s2 reco_oa : List Rec) : List Rec :=
  let reco_all := dedupe (reco_s2 ++ reco_oa)
  let biased := reco_all.map applyBiasVal
  pick_top biased cfg.top_reco

/-- The Recommendation Merger as the spec (4.6) words it: concatenate,
first-occurrence-deduplicate by identity key, add +2 to records tagged
`reco_s2`, stable-sort descending by `(relevance, citation_count)`,
truncate to top-N.  Spec-side counterpart to `mergeRecos`. -/
def specMergedReco (reco_s2 reco_oa : List Rec) (n : Nat) : List Rec :=
  let deduped := firstOccBy identityKey (reco_s2 ++ reco_oa)
  let biased := deduped.map
    (fun r => if r.bucket = "reco_s2" then { r with relevance := r.relevance + 2 } else r)
  (ssort (rankLe Rec.relevance Rec.cited_by_count) biased).take n

/-- The five output buckets main.py hands to rendering / merging. -/
structure Buckets where
  latest : List Rec
  classic : List Rec
  reco_oa : List Rec
  reco_s2 : List Rec
  reco : List Rec

/-- The pure pipeline of `main` (lines 821–848): per-bucket
enrich → dedupe → seen-filter → rank/truncate, then the recommendation
merge.  (`attach_fulltext_links` only annotates records with extra
open-access fields and neither drops records nor touches the fields
modelled here, so it is omitted; the in-place +2 bias is modelled
value-level here and with explicit aliasing further below.) -/
def runBuckets (cfg : Config) (latest_raw classic_raw reco_oa_raw : List OAWork)
    (reco_s2_raw : List S2Paper) (seen : SeenMap) (today : Int) : Buckets :=
  let latest := pick_top (filter_seen cfg (dedupe (enrich cfg latest_raw "latest")) seen today) cfg.top_latest
  let classic := pick_top (filter_seen cfg (dedupe (enrich cfg classic_raw "classic")) seen today) cfg.top_classic
  let reco_oa := pick_top_cited (filter_seen cfg (dedupe (enrich cfg reco_oa_raw "reco_oa")) seen today) cfg.top_reco_oa
  let reco_s2 := pick_top_cited (filter_seen cfg (dedupe (enrich_s2 cfg reco_s2_raw "reco_s2")) seen today) cfg.top_reco_s2
  { latest := latest
    classic := classic
    reco_oa := reco_oa
    reco_s2 := reco_s2
    reco := mergeRecos cfg reco_s2 reco_oa }

/-- `load_seen` from main.py, with the filesystem boundary made explicit:
`none` = `seen.json` does not exist, `some none` = the file exists but
`json.load` raises, `some (some m)` = the file parses to the mapping `m`.
Being a total Lean function, it returns (never raises) on every input. -/
def load_seen (disk : Option (Option SeenMap)) : SeenMap :=
  match disk with
  | none => []
  | some none => []
  | some (some m) => m

/-- Identity key read through a heap: model of Python object references.
The heap assigns each object id a record value; bucket lists hold ids. -/
def keyH (heap : Nat → Rec) (i : Nat) : String := identityKey (heap i)

/-- One iteration of main.py's bias loop
(`if it["bucket"] == "reco_s2": it["relevance"] += 2`), as a heap update:
only the object `i` itself changes, every alias of `i` observes it. -/
def biasStep (h : Nat → Rec) (i : Nat) : Nat → Rec :=
  if (h i).bucket = "reco_s2" then
    fun j => if j = i then { h i with relevance := (h i).relevance + 2 } else h j
  else h

/-- The whole bias loop `for it in reco_all: ...` over a list of object
ids. -/
def applyBiasLoop (l : List Nat) (h : Nat → Rec) : Nat → Rec := l.foldl biasStep h

/-- The reco_s2 pipeline of main.py at the object-id level:
`pick_top_cited(filter_seen(dedupe(...)))` with all field reads going
through the heap. -/
def finalS2Ids (cfg : Config) (heap : Nat → Rec) (s2raw : List Nat)
    (seen : SeenMap) (today : Int) : List Nat :=
  pick_top_citedBy (fun i => (heap i).cited_by_count)
    (filter_seenBy (keyH heap) cfg.seen_days_keep (dedupeGo (keyH heap) [] s2raw) seen today)
    cfg.top_reco_s2

/-- `reco_all = dedupe(reco_s2 + reco_oa)` at the object-id level. -/
def recoAllIds (cfg : Config) (heap : Nat → Rec) (s2raw oaIds : List Nat)
    (seen : SeenMap) (today : Int) : List Nat :=
  dedupeGo (keyH heap) [] (finalS2Ids cfg heap s2raw seen today ++ oaIds)

/-! ### Helper lemmas -/

/-- Accumulator form of the scorer loop: folding from `init` adds the sum
of the per-keyword contributions. -/
theorem relevance_foldl (t a : String) :
    ∀ (kws : List String) (init : Int),
      kws.foldl
        (fun score kw =>
          let k := toLowerStr kw
          if substrIn k t then score + 3
          else if substrIn k a then score + 1
          else score)
        init
      = init + (kws.map (fun kw =>
          if substrIn (toLowerStr kw) t then (3 : Int)
          else if substrIn (toLowerStr kw) a then 1
          else 0)).sum := by
  intro kws
  induction kws with
  | nil => intro init; simp
  | cons kw rest ih =>
    intro init
    simp only [List.foldl_cons, List.map_cons, List.sum_cons]
    rw [ih]
    split_ifs <;> ring

/-- Each per-keyword contribution is one of 3, 1, 0, hence non-negative. -/
theorem kwContribution_nonneg (title abstract kw : String) :
    0 ≤ kwContribution title abstract kw := by
  unfold kwContribution
  split
  · norm_num
  · split <;> norm_num

/-- Every record emitted by `enrich` passed the exclusion guard. -/
theorem enrich_not_excluded (cfg : Config) (tag : String) :
    ∀ (works : List OAWork), ∀ r ∈ enrich cfg works tag,
      excluded r.title r.abstract cfg.exclude_keywords = false := by
  intro works
  induction works with
  | nil => intro r hr; simp [enrich] at hr
  | cons w rest ih =>
    intro r hr
    by_cases h : excluded w.title (reconstruct_abstract w.abstract_inverted_index)
        cfg.exclude_keywords
    · rw [enrich, if_pos h] at hr
      exact ih r hr
    · rw [enrich, if_neg h] at hr
      rcases List.mem_cons.mp hr with hre | hrt
      · subst hre
        simpa using h
      · exact ih r hrt

/-- Every record emitted by `enrich_s2` passed the exclusion guard. -/
theorem enrich_s2_not_excluded (cfg : Config) (tag : String) :
    ∀ (papers : List S2Paper), ∀ r ∈ enrich_s2 cfg papers tag,
      excluded r.title r.abstract cfg.exclude_keywords = false := by
  intro papers
  induction papers with
  | nil => intro r hr; simp [enrich_s2] at hr
  | cons p rest ih =>
    intro r hr
    by_cases h : excluded p.title p.abstract cfg.exclude_keywords
    · rw [enrich_s2, if_pos h] at hr
      exact ih r hr
    · rw [enrich_s2, if_neg h] at hr
      rcases List.mem_cons.mp hr with hre | hrt
      · subst hre
        simpa using h
      · exact ih r hrt

/-- Unfolding equation of `firstOccBy` on the empty list. -/
theorem firstOccBy_nil (key : α → String) : firstOccBy key [] = [] := by
  rw [firstOccBy]

/-- Unfolding equation of `firstOccBy` on a cons cell. -/
theorem firstOccBy_cons (key : α → String) (x : α) (xs : List α) :
    firstOccBy key (x :: xs)
      = if key x = "" then firstOccBy key xs
        else x :: firstOccBy key (xs.filter (fun y => key y != key x)) := by
  rw [firstOccBy]

/-- `dedupeGo` returns a sublist of its input. -/
theorem dedupeGo_sublist (key : α → String) :
    ∀ (l : List α) (seen : List String), List.Sublist (dedupeGo key seen l) l := by
  intro l
  induction l with
  | nil => intro seen; simp [dedupeGo]
  | cons x rest ih =>
    intro seen
    rw [dedupeGo]
    split
    · exact (ih seen).cons x
    · exact (ih (key x :: seen)).cons₂ x

/-- The kept keys of `dedupeGo` are pairwise distinct, non-empty and
disjoint from the starting seen-set. -/
theorem dedupeGo_keys (key : α → String) :
    ∀ (l : List α) (seen : List String),
      ((dedupeGo key seen l).map key).Nodup ∧
      ∀ k ∈ (dedupeGo key seen l).map key, k ∉ seen ∧ k ≠ "" := by
  intro l
  induction l with
  | nil => intro seen; simp [dedupeGo]
  | cons x rest ih =>
    intro seen
    rw [dedupeGo]
    split
    · exact ih seen
    · rename_i hcond
      push_neg at hcond
      obtain ⟨hne, hnotin⟩ := hcond
      obtain ⟨ihnd, ihmem⟩ := ih (key x :: seen)
      refine ⟨?_, ?_⟩
      · simp only [List.map_cons, List.nodup_cons]
        refine ⟨fun hc => ?_, ihnd⟩
        exact (ihmem _ hc).1 (List.mem_cons_self _ _)
      · intro k hk
        simp only [List.map_cons, List.mem_cons] at hk
        rcases hk with hk | hk
        · subst hk; exact ⟨hnotin, hne⟩
        · obtain ⟨hn, hne'⟩ := ihmem k hk
          exact ⟨fun hs => hn (List.mem_cons_of_mem _ hs), hne'⟩

/-- `dedupeGo` is the identity on a list whose keys are already non-empty,
pairwise distinct, and unseen. -/
theorem dedupeGo_fixpoint (key : α → String) :
    ∀ (l : List α) (seen : List String),
      (∀ x ∈ l, key x ≠ "" ∧ key x ∉ seen) → (l.map key).Nodup →
      dedupeGo key seen l = l := by
  intro l
  induction l with
  | nil => intro seen _ _; simp [dedupeGo]
  | cons x rest ih =>
    intro seen hmem hnd
    obtain ⟨hne, hnotin⟩ := hmem x (List.mem_cons_self _ _)
    rw [dedupeGo, if_neg (by push_neg; exact ⟨hne, hnotin⟩)]
    simp only [List.map_cons, List.nodup_cons] at hnd
    congr 1
    refine ih (key x :: seen) (fun y hy => ?_) hnd.2
    obtain ⟨hne', hnotin'⟩ := hmem y (List.mem_cons_of_mem _ hy)
    refine ⟨hne', fun hc => ?_⟩
    rcases List.mem_cons.mp hc with hc | hc
    · exact hnd.1 (hc ▸ List.mem_map_of_mem key hy)
    · exact hnotin' hc

/-- `dedupeGo` with starting seen-set `seen` equals the spec's
first-occurrence dedup applied after discarding already-seen keys. -/
theorem dedupeGo_eq_firstOccBy (key : α → String) :
    ∀ (l : List α) (seen : List String),
      dedupeGo key seen l
        = firstOccBy key (l.filter (fun y => !(decide (key y ∈ seen)))) := by
  intro l
  induction l with
  | nil => intro seen; simp [dedupeGo, firstOccBy_nil]
  | cons x rest ih =>
    intro seen
    rw [dedupeGo, List.filter_cons]
    by_cases hseen : key x ∈ seen
    · rw [if_neg (show ¬((!(decide (key x ∈ seen))) = true) by simp [hseen]),
        if_pos (Or.inr hseen)]
      exact ih seen
    · rw [if_pos (show (!(decide (key x ∈ seen))) = true by simp [hseen])]
      by_cases hxe : key x = ""
      · rw [if_pos (Or.inl hxe), firstOccBy_cons, if_pos hxe]
        exact ih seen
      · rw [if_neg (by push_neg; exact ⟨hxe, hseen⟩), firstOccBy_cons, if_neg hxe]
        congr 1
        rw [ih (key x :: seen), List.filter_filter]
        congr 1
        apply List.filter_congr
        intro y _
        by_cases h1 : key y = key x
        · simp [h1, List.mem_cons]
        · by_cases h2 : key y ∈ seen <;> simp [h1, h2, List.mem_cons]

/-- `dedupe` is exactly the spec's first-occurrence deduplication. -/
theorem dedupe_eq_firstOccBy (items : List Rec) :
    dedupe items = firstOccBy identityKey items := by
  rw [dedupe, dedupeGo_eq_firstOccBy]
  congr 1
  simp

/-- Stable insertion permutes the extended list. -/
theorem sinsert_perm (le : α → α → Bool) (x : α) :
    ∀ (l : List α), (sinsert le x l).Perm (x :: l) := by
  intro l
  induction l with
  | nil => simp [sinsert]
  | cons y ys ih =>
    rw [sinsert]
    split
    · exact List.Perm.refl _
    · exact (ih.cons y).trans (List.Perm.swap x y ys)

/-- The stable sort permutes its input. -/
theorem ssort_perm (le : α → α → Bool) :
    ∀ (l : List α), (ssort le l).Perm l := by
  intro l
  induction l with
  | nil => simp [ssort]
  | cons x xs ih =>
    rw [ssort]
    exact (sinsert_perm le x (ssort le xs)).trans (ih.cons x)

/-- `take n` is a sublist. -/
theorem take_sub (n : Nat) (l : List α) : List.Sublist (l.take n) l := by
  have h : l.take n <+: l := ⟨l.drop n, List.take_append_drop n l⟩
  exact h.sublist

/-- Membership in a `pick_topBy` output comes from the input. -/
theorem mem_pick_topBy (rel cited : α → Int) (items : List α) (n : Nat) :
    ∀ r ∈ pick_topBy rel cited items n, r ∈ items := by
  intro r hr
  have h1 : r ∈ ssort (rankLe rel cited) items :=
    (take_sub n _).subset hr
  exact (ssort_perm _ items).mem_iff.mp h1

/-- Membership in a `pick_top_citedBy` output comes from the input. -/
theorem mem_pick_top_citedBy (cited : α → Int) (items : List α) (n : Nat) :
    ∀ r ∈ pick_top_citedBy cited items n, r ∈ items := by
  intro r hr
  have h1 : r ∈ ssort (citedLe cited) items :=
    (take_sub n _).subset hr
  exact (ssort_perm _ items).mem_iff.mp h1

/-- Membership in a `filter_seenBy` output comes from the input, and the
kept element's key is non-empty and absent from the purged mapping. -/
theorem mem_filter_seenBy (key : α → String) (keep : Int) (items : List α)
    (seen : SeenMap) (today : Int) :
    ∀ r ∈ filter_seenBy key keep items seen today,
      r ∈ items ∧ key r ≠ "" ∧ seenHasKey (purgeSeen seen today keep) (key r) = false := by
  intro r hr
  rw [filter_seenBy] at hr
  obtain ⟨hmem, hcond⟩ := List.mem_filter.mp hr
  rw [Bool.and_eq_true] at hcond
  obtain ⟨hne, hns⟩ := hcond
  refine ⟨hmem, ?_, ?_⟩
  · simpa using hne
  · simpa using hns

/-- A list whose keys are non-empty, pairwise distinct and unseen is a
prefix of `dedupeGo` applied to it concatenated with anything. -/
theorem dedupeGo_isPre_append (key : α → String) :
    ∀ (l₁ l₂ : List α) (seen : List String),
      (∀ x ∈ l₁, key x ≠ "") → ((l₁.map key).Nodup) → (∀ x ∈ l₁, key x ∉ seen) →
      l₁ <+: dedupeGo key seen (l₁ ++ l₂) := by
  intro l₁
  induction l₁ with
  | nil => intro l₂ seen _ _ _; exact List.nil_prefix
  | cons x rest ih =>
    intro l₂ seen hne hnd hns
    rw [List.cons_append, dedupeGo,
      if_neg (by
        push_neg
        exact ⟨hne x (List.mem_cons_self _ _), hns x (List.mem_cons_self _ _)⟩)]
    simp only [List.map_cons, List.nodup_cons] at hnd
    obtain ⟨t, ht⟩ := ih l₂ (key x :: seen)
      (fun y hy => hne y (List.mem_cons_of_mem _ hy)) hnd.2
      (fun y hy hc => by
        rcases List.mem_cons.mp hc with hc | hc
        · exact hnd.1 (hc ▸ List.mem_map_of_mem key hy)
        · exact hns y (List.mem_cons_of_mem _ hy) hc)
    exact ⟨t, by rw [List.cons_append, ht]⟩

/-- An index different from the updated one is untouched by one bias
step. -/
theorem biasStep_ne (h : Nat → Rec) (i j : Nat) (hij : j ≠ i) :
    biasStep h i j = h j := by
  rw [biasStep]
  split
  · simp [hij]
  · rfl

/-- An object whose id never occurs in the loop's list keeps its record. -/
theorem biasLoop_not_mem :
    ∀ (l : List Nat) (h : Nat → Rec) (i : Nat), i ∉ l → applyBiasLoop l h i = h i := by
  intro l
  induction l with
  | nil => intro h i _; rfl
  | cons j rest ih =>
    intro h i hi
    rw [applyBiasLoop, List.foldl_cons]
    have hij : i ≠ j := fun hc => hi (hc ▸ List.mem_cons_self _ _)
    have : applyBiasLoop rest (biasStep h j) i = biasStep h j i :=
      ih (biasStep h j) i (fun hc => hi (List.mem_cons_of_mem _ hc))
    rw [applyBiasLoop] at this
    rw [this, biasStep_ne h j i hij]

/-- An object tagged `reco_s2` whose id occurs exactly once in the loop's
list (here: the list has no duplicates) gets its relevance incremented by
exactly 2. -/
theorem biasLoop_mem :
    ∀ (l : List Nat) (h : Nat → Rec) (i : Nat), l.Nodup → i ∈ l →
      (h i).bucket = "reco_s2" →
      applyBiasLoop l h i = { h i with relevance := (h i).relevance + 2 } := by
  intro l
  induction l with
  | nil => intro h i _ hi _; simp at hi
  | cons j rest ih =>
    intro h i hnd hi hb
    rw [List.nodup_cons] at hnd
    rw [applyBiasLoop, List.foldl_cons]
    by_cases hij : i = j
    · subst hij
      have hstep : biasStep h i i = { h i with relevance := (h i).relevance + 2 } := by
        rw [biasStep, if_pos hb]
        simp
      have hrest : applyBiasLoop rest (biasStep h i) i = biasStep h i i :=
        biasLoop_not_mem rest (biasStep h i) i hnd.1
      rw [applyBiasLoop] at hrest
      rw [hrest, hstep]
    · have hstep : biasStep h j i = h i := biasStep_ne h j i hij
      have hmem : i ∈ rest := by
        rcases List.mem_cons.mp hi with hc | hc
        · exact absurd hc hij
        · exact hc
      have := ih (biasStep h j) i hnd.2 hmem (by rw [hstep]; exact hb)
      rw [applyBiasLoop] at this
      rw [this, hstep]

/-- Membership in a `pick_top` output comes from the input. -/
theorem mem_pick_top (items : List Rec) (n : Nat) :
    ∀ r ∈ pick_top items n, r ∈ items :=
  mem_pick_topBy Rec.relevance Rec.cited_by_count items n

/-- Membership in a `pick_top_cited` output comes from the input. -/
theorem mem_pick_top_cited (items : List Rec) (n : Nat) :
    ∀ r ∈ pick_top_cited items n, r ∈ items :=
  mem_pick_top_citedBy Rec.cited_by_count items n

/-- Membership in a `filter_seen` output comes from the input. -/
theorem mem_filter_seen (cfg : Config) (items : List Rec) (seen : SeenMap) (today : Int) :
    ∀ r ∈ filter_seen cfg items seen today, r ∈ items := by
  intro r hr
  exact (mem_filter_seenBy identityKey cfg.seen_days_keep items seen today r hr).1

/-- Membership in a `dedupe` output comes from the input. -/
theorem mem_dedupe (items : List Rec) : ∀ r ∈ dedupe items, r ∈ items := by
  intro r hr
  exact (dedupeGo_sublist identityKey items []).subset hr

/-- The bias map only changes `relevance`; in particular title and
abstract are untouched. -/
theorem applyBiasVal_fields (r : Rec) :
    (applyBiasVal r).title = r.title ∧ (applyBiasVal r).abstract = r.abstract := by
  rw [applyBiasVal]
  split <;> exact ⟨rfl, rfl⟩

/-- `seenHasKey` is membership of the key among the mapping's keys. -/
theorem seenHasKey_iff (s : SeenMap) (k : String) :
    seenHasKey s k = true ↔ k ∈ s.map Prod.fst := by
  rw [seenHasKey, List.any_eq_true]
  constructor
  · rintro ⟨e, he, hek⟩
    exact (eq_of_beq hek) ▸ List.mem_map_of_mem Prod.fst he
  · intro hk
    obtain ⟨e, he, hek⟩ := List.mem_map.mp hk
    exact ⟨e, he, beq_iff_eq.mpr hek⟩

/-! ### Claim theorems -/

/-- Claim C1: for every title, abstract and keyword list, the relevance
score equals the sum over the keywords of 3 for a case-insensitive
substring hit in the title, else 1 for a hit in the abstract, else 0; each
keyword contributes at most once (binary presence), and the total is a
non-negative integer. -/
theorem C1_relevance_score_sum (title abstract : String) (keywords : List String) :
    relevance_score title abstract keywords
      = (keywords.map (kwContribution title abstract)).sum ∧
    0 ≤ relevance_score title abstract keywords := by
  have heq : relevance_score title abstract keywords
      = (keywords.map (kwContribution title abstract)).sum := by
    simp only [relevance_score]
    rw [relevance_foldl]
    simp only [zero_add]
    rfl
  refine ⟨heq, ?_⟩
  rw [heq]
  apply List.sum_nonneg
  intro x hx
  obtain ⟨kw, _, hkw⟩ := List.mem_map.mp hx
  exact hkw ▸ kwContribution_nonneg title abstract kw

/-- Claim C2: exclusion is absolute — a raw record whose title or
(reconstructed) abstract contains a configured exclude-keyword is dropped
by the normalizers (not emitted), and consequently every record in every
output bucket (latest, classic, reco_oa, reco_s2, merged reco) is
non-excluded. -/
theorem C2_exclusion_absolute :
    (∀ (cfg : Config) (w : OAWork) (rest : List OAWork) (tag : String),
      excluded w.title (reconstruct_abstract w.abstract_inverted_index)
          cfg.exclude_keywords = true →
      enrich cfg (w :: rest) tag = enrich cfg rest tag) ∧
    (∀ (cfg : Config) (p : S2Paper) (rest : List S2Paper) (tag : String),
      excluded p.title p.abstract cfg.exclude_keywords = true →
      enrich_s2 cfg (p :: rest) tag = enrich_s2 cfg rest tag) ∧
    (∀ (cfg : Config) (latest_raw classic_raw reco_oa_raw : List OAWork)
        (reco_s2_raw : List S2Paper) (seen : SeenMap) (today : Int) (r : Rec),
      (r ∈ (runBuckets cfg latest_raw classic_raw reco_oa_raw reco_s2_raw seen today).latest ∨
       r ∈ (runBuckets cfg latest_raw classic_raw reco_oa_raw reco_s2_raw seen today).classic ∨
       r ∈ (runBuckets cfg latest_raw classic_raw reco_oa_raw reco_s2_raw seen today).reco_oa ∨
       r ∈ (runBuckets cfg latest_raw classic_raw reco_oa_raw reco_s2_raw seen today).reco_s2 ∨
       r ∈ (runBuckets cfg latest_raw classic_raw reco_oa_raw reco_s2_raw seen today).reco) →
      excluded r.title r.abstract cfg.exclude_keywords = false) := by
  refine ⟨?_, ?_, ?_⟩
  · intro cfg w rest tag h
    rw [enrich, if_pos h]
  · intro cfg p rest tag h
    rw [enrich_s2, if_pos h]
  · intro cfg latest_raw classic_raw reco_oa_raw reco_s2_raw seen today r hmem
    have hoa : ∀ (raw : List OAWork) (tag : String) (n : Nat),
        ∀ r' ∈ pick_top (filter_seen cfg (dedupe (enrich cfg raw tag)) seen today) n,
        excluded r'.title r'.abstract cfg.exclude_keywords = false := by
      intro raw tag n r' hr'
      exact enrich_not_excluded cfg tag raw r'
        (mem_dedupe _ r' (mem_filter_seen cfg _ seen today r' (mem_pick_top _ n r' hr')))
    have hoa2 : ∀ (raw : List OAWork) (tag : String) (n : Nat),
        ∀ r' ∈ pick_top_cited (filter_seen cfg (dedupe (enrich cfg raw tag)) seen today) n,
        excluded r'.title r'.abstract cfg.exclude_keywords = false := by
      intro raw tag n r' hr'
      exact enrich_not_excluded cfg tag raw r'
        (mem_dedupe _ r' (mem_filter_seen cfg _ seen today r' (mem_pick_top_cited _ n r' hr')))
    have hs2 : ∀ (n : Nat),
        ∀ r' ∈ pick_top_cited (filter_seen cfg (dedupe (enrich_s2 cfg reco_s2_raw "reco_s2")) seen today) n,
        excluded r'.title r'.abstract cfg.exclude_keywords = false := by
      intro n r' hr'
      exact enrich_s2_not_excluded cfg "reco_s2" reco_s2_raw r'
        (mem_dedupe _ r' (mem_filter_seen cfg _ seen today r' (mem_pick_top_cited _ n r' hr')))
    simp only [runBuckets] at hmem
    rcases hmem with h | h | h | h | h
    · exact hoa latest_raw "latest" cfg.top_latest r h
    · exact hoa classic_raw "classic" cfg.top_classic r h
    · exact hoa2 reco_oa_raw "reco_oa" cfg.top_reco_oa r h
    · exact hs2 cfg.top_reco_s2 r h
    · -- merged bucket: r is the bias image of a record from one of the two
      -- recommendation buckets
      rw [mergeRecos] at h
      have h1 := mem_pick_top _ cfg.top_reco r h
      obtain ⟨r0, hr0, hbias⟩ := List.mem_map.mp h1
      have h2 := mem_dedupe _ r0 hr0
      have h3 : excluded r0.title r0.abstract cfg.exclude_keywords = false := by
        rcases List.mem_append.mp h2 with hc | hc
        · exact hs2 cfg.top_reco_s2 r0 hc
        · exact hoa2 reco_oa_raw "reco_oa" cfg.top_reco_oa r0 hc
      obtain ⟨ht, ha⟩ := applyBiasVal_fields r0
      rw [← hbias, ht, ha]
      exact h3

/-- Concrete configuration for witnesses: the spec §8 scenario keywords. -/
def cfgW : Config :=
  { keywords := ["sic", "igbt"], exclude_keywords := ["survey"], seen_days_keep := 30
    top_latest := 5, top_classic := 5, top_reco_oa := 5, top_reco_s2 := 5, top_reco := 3 }

/-- Concrete raw OpenAlex work for witnesses (spec §8 scenario title). -/
def wW : OAWork :=
  { title := "SiC IGBT module aging", abstract_inverted_index := []
    publication_year := some 2024, publication_date := none, cited_by_count := some 1
    primary_location := none, doi := "https://doi.org/10.2/y", id := "W2", via_tag := none }

/-- The canonical record `enrich` produces from `wW` under `cfgW`. -/
def rW : Rec :=
  { title := "SiC IGBT module aging", abstract := "", publication_year := some 2024
    publication_date := none, cited_by_count := 1, venue := ""
    doi := "https://doi.org/10.2/y", url := "https://doi.org/10.2/y", relevance := 6
    bucket := "latest", via := some "official_s2" }

theorem C2_exclusion_absolute_witness :
    rW ∈ (runBuckets cfgW [wW] [] [] [] [] 0).latest ∧
    excluded rW.title rW.abstract cfgW.exclude_keywords = false :=
  ⟨by decide,
    C2_exclusion_absolute.2.2 cfgW [wW] [] [] [] [] 0 rW (Or.inl (by decide))⟩

/-- Claim C4: seen-state suppression has an inclusive retention boundary —
an identity key whose recorded date is exactly `seen_days_keep` days before
today survives the purge and suppresses matching records, while a key all
of whose recorded dates are `seen_days_keep + 1` days (or more) in the past
is purged and matching records pass the filter. -/
theorem C4_seen_retention_boundary (cfg : Config) (seen : SeenMap) (today : Int)
    (k : String) (items : List Rec) :
    (∀ d : Int, (k, some d) ∈ seen → today - d = cfg.seen_days_keep →
      k ∈ (purgeSeen seen today cfg.seen_days_keep).map Prod.fst ∧
      ∀ it ∈ items, identityKey it = k → it ∉ filter_seen cfg items seen today) ∧
    ((∀ d : Int, (k, some d) ∈ seen → cfg.seen_days_keep + 1 ≤ today - d) →
      k ∉ (purgeSeen seen today cfg.seen_days_keep).map Prod.fst ∧
      ∀ it ∈ items, identityKey it = k → k ≠ "" →
        it ∈ filter_seen cfg items seen today) := by
  constructor
  · intro d hd hb
    have hkeep : (k, some d) ∈ purgeSeen seen today cfg.seen_days_keep := by
      refine List.mem_filter.mpr ⟨hd, ?_⟩
      simp only [hb]
      simp
    have hkey : k ∈ (purgeSeen seen today cfg.seen_days_keep).map Prod.fst :=
      List.mem_map_of_mem Prod.fst hkeep
    refine ⟨hkey, ?_⟩
    intro it _ hik hcontra
    have := (mem_filter_seenBy identityKey cfg.seen_days_keep items seen today it hcontra).2.2
    rw [hik] at this
    exact absurd ((seenHasKey_iff _ k).mpr hkey) (by rw [this]; exact Bool.false_ne_true)
  · intro hall
    have hkey : k ∉ (purgeSeen seen today cfg.seen_days_keep).map Prod.fst := by
      intro hc
      obtain ⟨e, he, hek⟩ := List.mem_map.mp hc
      obtain ⟨hmem, hpred⟩ := List.mem_filter.mp he
      match e, hek with
      | (_, none), rfl => simp at hpred
      | (_, some d), rfl =>
        have h1 : cfg.seen_days_keep + 1 ≤ today - d := hall d hmem
        have h2 : today - d ≤ cfg.seen_days_keep := by simpa using hpred
        omega
    refine ⟨hkey, ?_⟩
    intro it hit hik hkne
    rw [filter_seen, filter_seenBy]
    refine List.mem_filter.mpr ⟨hit, ?_⟩
    rw [Bool.and_eq_true, hik]
    constructor
    · simpa using hkne
    · have hsk : seenHasKey (purgeSeen seen today cfg.seen_days_keep) k = false := by
        cases hc : seenHasKey (purgeSeen seen today cfg.seen_days_keep) k
        · rfl
        · exact absurd ((seenHasKey_iff _ k).mp hc) hkey
      simp [hsk]

/-- Concrete seen-state for the C4 witness: key `"a"` recorded exactly 30
days ago, key `"b"` recorded 40 days ago, key `"c"` unparseable. -/
def seenW : SeenMap := [("a", some (-30)), ("b", some (-40)), ("c", none)]

/-- Record with identity key `"a"` (via its doi). -/
def itA : Rec :=
  { title := "ta", abstract := "", publication_year := none, publication_date := none
    cited_by_count := 0, venue := "", doi := "a", url := "ua", relevance := 0
    bucket := "latest", via := none }

/-- Record with identity key `"b"` (via its doi). -/
def itB : Rec :=
  { title := "tb", abstract := "", publication_year := none, publication_date := none
    cited_by_count := 0, venue := "", doi := "b", url := "ub", relevance := 0
    bucket := "latest", via := none }

theorem C4_seen_retention_boundary_witness :
    ("a" ∈ (purgeSeen seenW 0 cfgW.seen_days_keep).map Prod.fst ∧
      itA ∉ filter_seen cfgW [itA, itB] seenW 0) ∧
    ("b" ∉ (purgeSeen seenW 0 cfgW.seen_days_keep).map Prod.fst ∧
      itB ∈ filter_seen cfgW [itA, itB] seenW 0) := by
  have h := C4_seen_retention_boundary cfgW seenW 0 "a" [itA, itB]
  have h1 := h.1 (-30) (by decide) (by decide)
  have hb := C4_seen_retention_boundary cfgW seenW 0 "b" [itA, itB]
  have h2 := hb.2 (by
    intro d hd
    simp only [seenW, List.mem_cons, List.not_mem_nil, or_false] at hd
    rcases hd with hd | hd | hd
    · simp at hd
    · have hdv : d = -40 := by simpa using hd
      subst hdv
      decide
    · simp at hd)
  exact ⟨⟨h1.1, h1.2 itA (by decide) (by decide)⟩,
    ⟨h2.1, h2.2 itB (by decide) (by decide) (by decide)⟩⟩

/-- Claim C3: the merged recommendation bucket equals the spec's
description — concatenate the two buckets, first-occurrence-deduplicate by
identity key, then add exactly +2 to every surviving record tagged
`reco_s2`, then stable-sort descending by `(relevance, citation_count)`
and truncate to top-N; in particular deduplication runs strictly before
the bias is applied. -/
theorem C3_merge_refines_spec (cfg : Config) (reco_s2 reco_oa : List Rec) :
    mergeRecos cfg reco_s2 reco_oa = specMergedReco reco_s2 reco_oa cfg.top_reco := by
  simp only [mergeRecos, specMergedReco]
  rw [dedupe_eq_firstOccBy]
  rfl

/-- Claim C5: the Deduplicator returns exactly the first occurrence of
each non-empty identity key, in first-seen order, dropping records whose
identity key is empty. -/
theorem C5_dedupe_first_occurrence (items : List Rec) :
    dedupe items = firstOccBy identityKey items :=
  dedupe_eq_firstOccBy items

/-- Claim C8: the Deduplicator is idempotent, its output is no longer than
its input, and its output is a sublist of the input (first-occurrence
order preserved). -/
theorem C8_dedupe_idempotent (items : List Rec) :
    dedupe (dedupe items) = dedupe items ∧
    (dedupe items).length ≤ items.length ∧
    List.Sublist (dedupe items) items := by
  obtain ⟨hnd, hmem⟩ := dedupeGo_keys identityKey items []
  refine ⟨?_, ?_, ?_⟩
  · exact dedupeGo_fixpoint identityKey (dedupe items) []
      (fun x hx =>
        ⟨(hmem _ (List.mem_map_of_mem identityKey hx)).2, List.not_mem_nil _⟩)
      hnd
  · exact (dedupeGo_sublist identityKey items []).length_le
  · exact dedupeGo_sublist identityKey items []

/-- Claim C9: loading the seen-state never raises — it is a total
function of the persisted content that returns the empty mapping when the
file is missing (`none`) or unreadable (`some none`), and the persisted
mapping otherwise. -/
theorem C9_load_seen_total :
    load_seen none = [] ∧ load_seen (some none) = [] ∧
    ∀ m : SeenMap, load_seen (some (some m)) = m :=
  ⟨rfl, rfl, fun _ => rfl⟩

/-- The `url = p.get("url") or doi_url` / `"url": url or doi_url` fallback
chain of `enrich_s2` is non-empty when either source is. -/
theorem url_fallback_ne (u d : String) (h : u ≠ "" ∨ d ≠ "") :
    (if (if u ≠ "" then u else d) ≠ "" then (if u ≠ "" then u else d) else d) ≠ "" := by
  by_cases hu : u ≠ ""
  · simp only [if_pos hu]
    exact hu
  · have hd : d ≠ "" := by
      rcases h with hc | hc
      · exact absurd hc hu
      · exact hc
    simp only [if_neg hu]
    rw [if_pos hd]
    exact hd

/-- A string starting with the DOI-resolver prefix is non-empty. -/
theorem doi_prefix_ne (s : String) : ("https://doi.org/" ++ s) ≠ "" := by
  intro hc
  have h := congrArg String.length hc
  rw [String.length_append] at h
  have h16 : ("https://doi.org/" : String).length = 16 := by decide
  have h0 : ("" : String).length = 0 := by decide
  rw [h16, h0] at h
  omega

/-- `pick_best_url` yields a non-empty link when the work carries at least
one of the three link sources. -/
theorem pick_best_url_ne (w : OAWork)
    (h : w.doi ≠ "" ∨ landingOf w ≠ "" ∨ w.id ≠ "") : pick_best_url w ≠ "" := by
  rw [pick_best_url]
  split
  · assumption
  · split
    · assumption
    · rcases h with h | h | h
      · contradiction
      · contradiction
      · exact h

/-- Claim C7 (counterexample to the claim as stated): a raw OpenAlex work
with no DOI, no landing page and an empty id is still emitted by `enrich`
(one canonical record), and its `url` field is the empty string. -/
def wEmpty : OAWork :=
  { title := "t", abstract_inverted_index := [], publication_year := none
    publication_date := none, cited_by_count := none, primary_location := none
    doi := "", id := "", via_tag := none }

theorem C7_url_nonempty_counterexample :
    (enrich cfgW [wEmpty] "latest").map Rec.url = [""] := by decide

/-- Claim C7 as amended: an emitted record's `url` is non-empty provided
the raw record carries at least one link source — for OpenAlex works a
DOI, a landing-page link or a (non-empty) source-native id; for
service-source records a provided URL or an external-identifier DOI.
(The claim as stated fails when all fallbacks are absent, see the
counterexample.) -/
theorem C7_url_nonempty_amended :
    (∀ (cfg : Config) (works : List OAWork) (tag : String),
      (∀ w ∈ works, w.doi ≠ "" ∨ landingOf w ≠ "" ∨ w.id ≠ "") →
      ∀ r ∈ enrich cfg works tag, r.url ≠ "") ∧
    (∀ (cfg : Config) (papers : List S2Paper) (tag : String),
      (∀ p ∈ papers, p.url ≠ "" ∨ p.externalIds_DOI ≠ "") →
      ∀ r ∈ enrich_s2 cfg papers tag, r.url ≠ "") := by
  constructor
  · intro cfg works tag
    induction works with
    | nil => intro _ r hr; simp [enrich] at hr
    | cons w rest ih =>
      intro hall r hr
      by_cases h : excluded w.title (reconstruct_abstract w.abstract_inverted_index)
          cfg.exclude_keywords
      · rw [enrich, if_pos h] at hr
        exact ih (fun y hy => hall y (List.mem_cons_of_mem _ hy)) r hr
      · rw [enrich, if_neg h] at hr
        rcases List.mem_cons.mp hr with hre | hrt
        · subst hre
          exact pick_best_url_ne w (hall w (List.mem_cons_self _ _))
        · exact ih (fun y hy => hall y (List.mem_cons_of_mem _ hy)) r hrt
  · intro cfg papers tag
    induction papers with
    | nil => intro _ r hr; simp [enrich_s2] at hr
    | cons p rest ih =>
      intro hall r hr
      by_cases h : excluded p.title p.abstract cfg.exclude_keywords
      · rw [enrich_s2, if_pos h] at hr
        exact ih (fun y hy => hall y (List.mem_cons_of_mem _ hy)) r hr
      · rw [enrich_s2, if_neg h] at hr
        rcases List.mem_cons.mp hr with hre | hrt
        · subst hre
          refine url_fallback_ne p.url
            (if p.externalIds_DOI ≠ "" then "https://doi.org/" ++ p.externalIds_DOI else "") ?_
          rcases hall p (List.mem_cons_self _ _) with hc | hc
          · exact Or.inl hc
          · refine Or.inr ?_
            rw [if_pos hc]
            exact doi_prefix_ne p.externalIds_DOI
        · exact ih (fun y hy => hall y (List.mem_cons_of_mem _ hy)) r hrt

theorem C7_url_nonempty_amended_witness :
    (∀ w ∈ [wW], w.doi ≠ "" ∨ landingOf w ≠ "" ∨ w.id ≠ "") ∧
    (∀ r ∈ enrich cfgW [wW] "latest", r.url ≠ "") :=
  ⟨by decide, C7_url_nonempty_amended.1 cfgW [wW] "latest" (by decide)⟩

/-- The canonical record `enrich` builds from one non-excluded work
(the record literal of `enrich`'s loop body, factored out for proofs). -/
def enrichOne (cfg : Config) (w : OAWork) (tag : String) : Rec :=
  { title := w.title
    abstract := reconstruct_abstract w.abstract_inverted_index
    publication_year := w.publication_year
    publication_date := w.publication_date
    cited_by_count := w.cited_by_count.getD 0
    venue := venueOf w
    doi := w.doi
    url := pick_best_url w
    relevance := relevance_score w.title (reconstruct_abstract w.abstract_inverted_index) cfg.keywords
    bucket := tag
    via := some (w.via_tag.getD "official_s2") }

/-- `enrich` on a non-excluded head emits exactly `enrichOne`. -/
theorem enrich_cons_kept (cfg : Config) (w : OAWork) (rest : List OAWork) (tag : String)
    (h : excluded w.title (reconstruct_abstract w.abstract_inverted_index)
        cfg.exclude_keywords = false) :
    enrich cfg (w :: rest) tag = enrichOne cfg w tag :: enrich cfg rest tag := by
  rw [enrich, if_neg (by simp [h])]
  rfl

/-- With a non-empty DOI the identity key of the enriched record is that
DOI. -/
theorem identityKey_enrichOne (cfg : Config) (w : OAWork) (tag : String)
    (hne : w.doi ≠ "") : identityKey (enrichOne cfg w tag) = w.doi := by
  have hd : (enrichOne cfg w tag).doi = w.doi := rfl
  rw [identityKey, hd, if_pos hne]

/-- `dedupe` keeps a singleton with a non-empty key. -/
theorem dedupe_one (r : Rec) (h : identityKey r ≠ "") : dedupe [r] = [r] := by
  rw [dedupe, dedupeGo]
  split
  · rename_i hc
    rcases hc with hc | hc
    · exact absurd hc h
    · exact absurd hc (List.not_mem_nil _)
  · rfl

/-- The seen filter keeps a singleton with a non-empty key when the
seen-state is empty. -/
theorem filter_seen_empty_one (cfg : Config) (r : Rec) (today : Int)
    (h : identityKey r ≠ "") : filter_seen cfg [r] [] today = [r] := by
  rw [filter_seen, filter_seenBy]
  simp [purgeSeen, seenHasKey, h]

/-- `pick_top` keeps a singleton whenever the cut-off is at least one. -/
theorem pick_top_one (r : Rec) (n : Nat) (h : 1 ≤ n) : pick_top [r] n = [r] := by
  rw [pick_top, pick_topBy]
  have hs : ssort (rankLe Rec.relevance Rec.cited_by_count) [r] = [r] := rfl
  rw [hs]
  obtain ⟨m, rfl⟩ : ∃ m, n = m + 1 := ⟨n - 1, by omega⟩
  simp

/-- `pick_top_cited` keeps a singleton whenever the cut-off is at least
one. -/
theorem pick_top_cited_one (r : Rec) (n : Nat) (h : 1 ≤ n) : pick_top_cited [r] n = [r] := by
  rw [pick_top_cited, pick_top_citedBy]
  have hs : ssort (citedLe Rec.cited_by_count) [r] = [r] := rfl
  rw [hs]
  obtain ⟨m, rfl⟩ : ∃ m, n = m + 1 := ⟨n - 1, by omega⟩
  simp

/-- Concrete work for the C6 scenario: a fixed DOI, fed simultaneously
into the latest bucket and the reco_oa bucket. -/
def wX : OAWork :=
  { title := "T", abstract_inverted_index := [], publication_year := none
    publication_date := none, cited_by_count := some 1, primary_location := none
    doi := "https://doi.org/10.1/x", id := "W1", via_tag := none }

/-- Claim C6 (counterexample to the claim as stated): the same DOI enters
via `latest` and via `reco_oa`; after the per-bucket deduplication BOTH
instances survive — the latest bucket holds one copy tagged `latest` and
the reco_oa bucket holds another copy tagged `reco_oa` — contradicting
"the second instance appears in no output bucket". -/
theorem C6_cross_bucket_counterexample :
    (runBuckets cfgW [wX] [] [wX] [] [] 0).latest.map (fun r => (r.doi, r.bucket))
        = [("https://doi.org/10.1/x", "latest")] ∧
    (runBuckets cfgW [wX] [] [wX] [] [] 0).reco_oa.map (fun r => (r.doi, r.bucket))
        = [("https://doi.org/10.1/x", "reco_oa")] := by
  decide

/-- Claim C6 as amended: deduplication is per bucket — when two raw
records with the same (non-empty) DOI enter via the `latest` and `reco_oa`
buckets, each survives its own bucket's deduplication, so the DOI appears
in BOTH output buckets, each copy carrying its own source's tag (only
within one deduplication pass, i.e. inside one bucket or inside the merged
`reco_s2 ++ reco_oa` concatenation, does first-occurrence-wins apply). -/
theorem C6_cross_bucket_amended (cfg : Config) (w1 w2 : OAWork) (today : Int)
    (hdoi : w2.doi = w1.doi) (hne : w1.doi ≠ "")
    (hx1 : excluded w1.title (reconstruct_abstract w1.abstract_inverted_index)
        cfg.exclude_keywords = false)
    (hx2 : excluded w2.title (reconstruct_abstract w2.abstract_inverted_index)
        cfg.exclude_keywords = false)
    (h1 : 1 ≤ cfg.top_latest) (h2 : 1 ≤ cfg.top_reco_oa) :
    (∃ r ∈ (runBuckets cfg [w1] [] [w2] [] [] today).latest,
        r.doi = w1.doi ∧ r.bucket = "latest") ∧
    (∃ r ∈ (runBuckets cfg [w1] [] [w2] [] [] today).reco_oa,
        r.doi = w1.doi ∧ r.bucket = "reco_oa") := by
  have hne2 : w2.doi ≠ "" := by rw [hdoi]; exact hne
  have e1 : enrich cfg [w1] "latest" = [enrichOne cfg w1 "latest"] := by
    rw [enrich_cons_kept cfg w1 [] "latest" hx1]
    rfl
  have e2 : enrich cfg [w2] "reco_oa" = [enrichOne cfg w2 "reco_oa"] := by
    rw [enrich_cons_kept cfg w2 [] "reco_oa" hx2]
    rfl
  have k1 : identityKey (enrichOne cfg w1 "latest") ≠ "" := by
    rw [identityKey_enrichOne cfg w1 "latest" hne]
    exact hne
  have k2 : identityKey (enrichOne cfg w2 "reco_oa") ≠ "" := by
    rw [identityKey_enrichOne cfg w2 "reco_oa" hne2]
    exact hne2
  have hlat : (runBuckets cfg [w1] [] [w2] [] [] today).latest
      = [enrichOne cfg w1 "latest"] := by
    show pick_top (filter_seen cfg (dedupe (enrich cfg [w1] "latest")) [] today)
        cfg.top_latest = _
    rw [e1, dedupe_one _ k1, filter_seen_empty_one cfg _ today k1, pick_top_one _ _ h1]
  have hoa : (runBuckets cfg [w1] [] [w2] [] [] today).reco_oa
      = [enrichOne cfg w2 "reco_oa"] := by
    show pick_top_cited (filter_seen cfg (dedupe (enrich cfg [w2] "reco_oa")) [] today)
        cfg.top_reco_oa = _
    rw [e2, dedupe_one _ k2, filter_seen_empty_one cfg _ today k2, pick_top_cited_one _ _ h2]
  constructor
  · exact ⟨enrichOne cfg w1 "latest", by rw [hlat]; exact List.mem_singleton.mpr rfl,
      rfl, rfl⟩
  · exact ⟨enrichOne cfg w2 "reco_oa", by rw [hoa]; exact List.mem_singleton.mpr rfl,
      hdoi, rfl⟩

theorem C6_cross_bucket_amended_witness :
    (wX.doi ≠ "" ∧ 1 ≤ cfgW.top_latest ∧ 1 ≤ cfgW.top_reco_oa) ∧
    ((∃ r ∈ (runBuckets cfgW [wX] [] [wX] [] [] 0).latest,
        r.doi = wX.doi ∧ r.bucket = "latest") ∧
     (∃ r ∈ (runBuckets cfgW [wX] [] [wX] [] [] 0).reco_oa,
        r.doi = wX.doi ∧ r.bucket = "reco_oa")) :=
  ⟨by decide,
    C6_cross_bucket_amended cfgW wX wX 0 rfl (by decide) (by decide) (by decide)
      (by decide) (by decide)⟩

/-- Claim C10: the +2 merge bias mutates record objects in place.  Because
the reco_s2 bucket's elements come first in the `reco_s2 ++ reco_oa`
concatenation and are already key-distinct, every one of them survives
`dedupe` of the concatenation and is therefore visited by the bias loop:
reading the heap after the loop, every object of the standalone reco_s2
bucket handed to rendering shows relevance equal to its pre-merge
(Scorer-assigned) value plus 2 — the bias leaks into the reco_s2 bucket's
displayed relevance, not only into the merged bucket. -/
theorem C10_bias_leaks_into_s2_bucket (cfg : Config) (heap : Nat → Rec)
    (s2raw oaIds : List Nat) (seen : SeenMap) (today : Int)
    (hbucket : ∀ i ∈ s2raw, (heap i).bucket = "reco_s2") :
    ∀ i ∈ finalS2Ids cfg heap s2raw seen today,
      (applyBiasLoop (recoAllIds cfg heap s2raw oaIds seen today) heap i).relevance
        = (heap i).relevance + 2 := by
  intro i hi
  rw [finalS2Ids] at hi
  have hfs := mem_pick_top_citedBy (fun j => (heap j).cited_by_count)
    (filter_seenBy (keyH heap) cfg.seen_days_keep (dedupeGo (keyH heap) [] s2raw) seen today)
    cfg.top_reco_s2 i hi
  obtain ⟨hdd, hkne, _⟩ := mem_filter_seenBy (keyH heap) cfg.seen_days_keep
    (dedupeGo (keyH heap) [] s2raw) seen today i hfs
  have hs2raw : i ∈ s2raw := (dedupeGo_sublist (keyH heap) s2raw []).subset hdd
  -- the final reco_s2 id list has pairwise-distinct, non-empty keys
  have hnd_dd : ((dedupeGo (keyH heap) [] s2raw).map (keyH heap)).Nodup :=
    (dedupeGo_keys (keyH heap) s2raw []).1
  have hsub_fs : List.Sublist
      (filter_seenBy (keyH heap) cfg.seen_days_keep (dedupeGo (keyH heap) [] s2raw) seen today)
      (dedupeGo (keyH heap) [] s2raw) := List.filter_sublist _
  have hnd_fs : ((filter_seenBy (keyH heap) cfg.seen_days_keep
      (dedupeGo (keyH heap) [] s2raw) seen today).map (keyH heap)).Nodup :=
    List.Nodup.sublist (List.Sublist.map _ hsub_fs) hnd_dd
  have hnd_sorted : ((ssort (citedLe (fun j => (heap j).cited_by_count))
      (filter_seenBy (keyH heap) cfg.seen_days_keep
        (dedupeGo (keyH heap) [] s2raw) seen today)).map (keyH heap)).Nodup :=
    (((ssort_perm _ _).map (keyH heap)).symm).nodup hnd_fs
  have hnd_final : ((finalS2Ids cfg heap s2raw seen today).map (keyH heap)).Nodup := by
    rw [finalS2Ids]
    exact List.Nodup.sublist (List.Sublist.map _ (take_sub cfg.top_reco_s2 _)) hnd_sorted
  have hkeys_ne : ∀ j ∈ finalS2Ids cfg heap s2raw seen today, keyH heap j ≠ "" := by
    intro j hj
    rw [finalS2Ids] at hj
    exact (mem_filter_seenBy (keyH heap) cfg.seen_days_keep
      (dedupeGo (keyH heap) [] s2raw) seen today j
      (mem_pick_top_citedBy _ _ cfg.top_reco_s2 j hj)).2.1
  -- the reco_s2 ids are a prefix of the deduplicated concatenation
  have hpre : finalS2Ids cfg heap s2raw seen today <+:
      recoAllIds cfg heap s2raw oaIds seen today :=
    dedupeGo_isPre_append (keyH heap) _ oaIds [] hkeys_ne hnd_final
      (fun x _ => List.not_mem_nil _)
  have hmem_all : i ∈ recoAllIds cfg heap s2raw oaIds seen today := by
    apply hpre.subset
    rw [finalS2Ids]
    exact hi
  have hnd_all : (recoAllIds cfg heap s2raw oaIds seen today).Nodup :=
    List.Nodup.of_map (keyH heap)
      (dedupeGo_keys (keyH heap) (finalS2Ids cfg heap s2raw seen today ++ oaIds) []).1
  rw [biasLoop_mem _ heap i hnd_all hmem_all (hbucket i hs2raw)]

/-- Concrete heap object for the C10 witness: a reco_s2-tagged record. -/
def rS2W : Rec :=
  { title := "s", abstract := "", publication_year := none, publication_date := none
    cited_by_count := 3, venue := "", doi := "https://doi.org/10.3/z"
    url := "https://doi.org/10.3/z", relevance := 5, bucket := "reco_s2", via := none }

theorem C10_bias_leaks_into_s2_bucket_witness :
    (∀ i ∈ [0], ((fun _ : Nat => rS2W) i).bucket = "reco_s2") ∧
    (∀ i ∈ finalS2Ids cfgW (fun _ => rS2W) [0] [] 0,
      (applyBiasLoop (recoAllIds cfgW (fun _ => rS2W) [0] [] [] 0) (fun _ => rS2W) i).relevance
        = ((fun _ : Nat => rS2W) i).relevance + 2) :=
  ⟨by decide,
    C10_bias_leaks_into_s2_bucket cfgW (fun _ => rS2W) [0] [] [] 0 (by decide)⟩

end DailyBrief
